import Mathlib

/-!
Shallow embedding of the weighted fuzzy text-reconciliation engine of the
`label_reconciliations` repository, translated from
`src/lib/column_types/userWeightedText.py` and the configuration handling in
`src/reconcile.py` (`parse_command_line`).

Python strings are modelled as Lean `String`s operated on through their
character lists; `len` is the character count.  The external `fuzzywuzzy`
similarity functions (`fuzz.partial_ratio`, `fuzz.token_set_ratio`) are not
part of this repository, so they enter the model as function parameters
`pr tsr : String → String → Int`.  Python dicts are modelled as
insertion-ordered association lists with last-writer-wins update, exactly the
semantics the module relies on.

A group is a list of `(user identifier, raw text)` entries: the dispatcher
(`lib/reconciler.py`, not among the sources) hands each strategy a pandas
Series of the group's texts indexed by user, which `reconcile` iterates by
value and `top_partial_ratio` reads index-and-value (its
`reset_index(level=0, drop=True).to_dict()` keys the texts by user); the
spec's data model confirms that each entry is "tagged with the identifier of
the user who authored it".
-/

namespace LabelRec

/-- Split a character list at every character satisfying `p`; the separators
are dropped and empty segments are kept, as with Python `re`-free splitting
primitives.  The result is always non-empty. -/
def splitChar (p : Char → Bool) : List Char → List (List Char)
  | [] => [[]]
  | c :: cs =>
    match splitChar p cs with
    | [] => [[]]
    | r :: rs => if p c then [] :: r :: rs else (c :: r) :: rs

/-- Python `str.splitlines()` restricted to the `'\n'` terminator: the final
segment is dropped when it is empty (so `""` has no lines and a trailing
newline adds no empty line). -/
def pySplitlines (l : List Char) : List (List Char) :=
  let ps := splitChar (fun c => c = '\n') l
  if ps.getLast? = some [] then ps.dropLast else ps

/-- Python `str.split()` with no argument: split on whitespace runs and drop
the empty segments. -/
def pySplitWs (l : List Char) : List (List Char) :=
  (splitChar Char.isWhitespace l).filter (fun w => !w.isEmpty)

/-- `' '.join(ln.split())`: collapse every whitespace run of one line to a
single space and trim the ends. -/
def squeezeLine (l : List Char) : List Char :=
  List.intercalate [' '] (pySplitWs l)

/-- The per-entry normalization applied both at the top of `reconcile`
(userWeightedText.py lines 24-25) and inside `top_partial_ratio` (`convLine`,
lines 99-101): `'\n'.join(' '.join(ln.split()) for ln in str(g).splitlines())`. -/
def convLine (s : String) : String :=
  ⟨List.intercalate ['\n'] ((pySplitlines s.data).map squeezeLine)⟩

/-- Python `str.strip()`: remove leading and trailing whitespace. -/
def pyStrip (s : String) : String :=
  ⟨((s.data.dropWhile Char.isWhitespace).reverse.dropWhile Char.isWhitespace).reverse⟩

/-- A word character in the sense of the regex `\W` used at
userWeightedText.py line 84, for ASCII text: alphanumeric or underscore. -/
def isWordChar (c : Char) : Bool := c.isAlphanum || c = '_'

/-- `re.sub(r'\W+', '', value).lower()` (userWeightedText.py line 84): drop the
non-word characters and lower-case the rest. -/
def squish (s : String) : String :=
  ⟨(s.data.filter isWordChar).map Char.toLower⟩

/-- Python `len` of a string: its character count. -/
def pyLen (s : String) : Nat := s.data.length

/-- `len(s.split())`: the number of whitespace-separated tokens. -/
def wordCount (s : String) : Nat := (pySplitWs s.data).length

/-- `ExactScore = namedtuple('ExactScore', 'value count')`. -/
structure ExactScore where
  value : String
  count : Nat
deriving Repr, DecidableEq

/-- `FuzzyRatioScore = namedtuple('FuzzyRatioScore', 'score value')`. -/
structure FuzzyRatioScore where
  score : Int
  value : String
deriving Repr, DecidableEq

/-- `FuzzySetScore = namedtuple('FuzzySetScore', 'score value tokens')`. -/
structure FuzzySetScore where
  score : Int
  value : String
  tokens : Nat
deriving Repr, DecidableEq

/-- `all_filled[squished] = same_values` after
`same_values = all_filled.get(squished, []); same_values.append(value)`:
append `v` to the list stored under `key`, keeping the dict's insertion
order; a new key goes to the end. -/
def dictAppend (gs : List (String × List String)) (key v : String) :
    List (String × List String) :=
  match gs with
  | [] => [(key, [v])]
  | (k, vs) :: rest =>
    if k = key then (k, vs ++ [v]) :: rest else (k, vs) :: dictAppend rest key v

/-- `sorted(vals, key=len, reverse=True)[0]`: the first longest element (the
stable descending sort keeps the earliest of the longest in front). -/
def longest_first : List String → String
  | [] => ""
  | v :: vs => vs.foldl (fun best x => if pyLen x > pyLen best then x else best) v

/-- The ordering of `sorted(only_filled, key=lambda s: s.count, reverse=True)`:
descending occurrence count. -/
def countDescR (a b : ExactScore) : Prop := b.count ≤ a.count

instance : DecidableRel countDescR := fun a b =>
  inferInstanceAs (Decidable (b.count ≤ a.count))

/-- One iteration of the grouping loop of `only_filled_values`
(userWeightedText.py lines 81-87): strip the value, skip it when blank,
otherwise append it to the list stored under its squished key. -/
def fillStep (gs : List (String × List String)) (v : String) :
    List (String × List String) :=
  let v := pyStrip v
  if v = "" then gs else dictAppend gs (squish v) v

/-- `only_filled_values` (userWeightedText.py lines 71-94): strip each value,
drop the blanks, group the rest by their squished comparison key (dict
insertion order), keep each group's first longest literal variant with its
occurrence count, and sort by count descending (stably, as Python does). -/
def only_filled_values (values : List String) : List ExactScore :=
  let all_filled := values.foldl fillStep []
  let scores := all_filled.map (fun g => ExactScore.mk (longest_first g.2) g.2.length)
  List.insertionSort countDescR scores

/-- `itertools.combinations(values, 2)` in its enumeration order. -/
def combos {α : Type} : List α → List (α × α)
  | [] => []
  | x :: xs => xs.map (fun y => (x, y)) ++ combos xs

/-- Python dict assignment `d[k] = v`: update in place when the key exists,
else append at the end. -/
def dictInsert {α : Type} (d : List (String × α)) (k : String) (v : α) :
    List (String × α) :=
  match d with
  | [] => [(k, v)]
  | (k0, v0) :: rest =>
    if k0 = k then (k, v) :: rest else (k0, v0) :: dictInsert rest k v

/-- Build a Python dict from a sequence of pairs (last writer wins, first
occurrence fixes the position). -/
def toDict {α : Type} (pairs : List (String × α)) : List (String × α) :=
  pairs.foldl (fun d p => dictInsert d p.1 p.2) []

/-- Python `d.get(k)` on a dict with string keys. -/
def lookup? {α : Type} : List (String × α) → String → Option α
  | [], _ => none
  | (k0, v) :: rest, k => if k0 = k then some v else lookup? rest k

/-- `trustedUserWeights.get(userName, 0)` (userWeightedText.py line 113), where
`userName` may be Python `None` — which is never a key, so it yields 0. -/
def getWeight (w : List (String × Int)) (userName : Option String) : Int :=
  match userName with
  | none => 0
  | some u => (lookup? w u).getD 0

/-- The `{entered text: user who entered it}` lookup of userWeightedText.py
lines 104-106: the group's `(user, normalized text)` Series is turned into a
dict keyed by user (duplicate users: last wins) and then inverted (duplicate
texts: last wins). -/
def userAttribution (values : List (String × String)) : List (String × String) :=
  toDict ((toDict values).map (fun p => (p.2, p.1)))

/-- The unordered pairs scored by step 7 (userWeightedText.py line 109):
`combinations(values, 2)` where `values = group.apply(convLine)` — every
entry of the group, whitespace-normalized, blanks included. -/
def partial_ratio_pairs (group : List (String × String)) : List (String × String) :=
  combos (group.map (fun g => convLine g.2))

/-- The body of the `for combo in combinations(values, 2)` loop of
`top_partial_ratio` (userWeightedText.py lines 109-118): raw similarity from
`pr`, candidate = the longer member (ties: the first), author weight added,
ceiling of 100 enforced. -/
def partial_scores (pr : String → String → Int) (group : List (String × String))
    (trustedUserWeights : List (String × Int)) : List FuzzyRatioScore :=
  let values := group.map (fun g => (g.1, convLine g.2))
  let attribution := userAttribution values
  (combos (values.map Prod.snd)).map (fun combo =>
    let score := pr combo.1 combo.2
    let value := if pyLen combo.1 ≥ pyLen combo.2 then combo.1 else combo.2
    let userName := lookup? attribution value
    let scoreWeight := getWeight trustedUserWeights userName
    let score := score + scoreWeight
    let score := if score > 100 then (100 : Int) else score
    FuzzyRatioScore.mk score value)

/-- The ranking of `sorted(scores, reverse=True, key=lambda s: (s.score,
len(s.value)))`: strictly greater under the lexicographic key. -/
def ratioGT (a b : FuzzyRatioScore) : Bool :=
  a.score > b.score || (a.score == b.score && pyLen a.value > pyLen b.value)

/-- `sorted(..., reverse=True, key=...)[0]` for a stable sort: the earliest
element no other element strictly beats.  `none` exactly when the list is
empty (Python raises IndexError there). -/
def pickFirstMax {α : Type} (gt : α → α → Bool) : List α → Option α
  | [] => none
  | x :: xs => some (xs.foldl (fun best y => if gt y best then y else best) x)

/-- `top_partial_ratio(group, trustedUserWeights)` (userWeightedText.py lines
97-122). -/
def top_partial_ratio (pr : String → String → Int) (group : List (String × String))
    (trustedUserWeights : List (String × Int)) : Option FuzzyRatioScore :=
  pickFirstMax ratioGT (partial_scores pr group trustedUserWeights)

/-- The unordered pairs scored by step 8 (userWeightedText.py line 128):
`combinations(values, 2)` over the `values` list computed at the top of
`reconcile` — every entry, whitespace-normalized, blanks included. -/
def token_set_pairs (values : List String) : List (String × String) :=
  combos values

/-- The body of the scoring loop of `top_token_set_ratio` (userWeightedText.py
lines 128-143): similarity from `tsr`, candidate = the member with more
whitespace tokens, ties broken toward the shorter string and then the first
member of the pair. -/
def token_set_scores (tsr : String → String → Int) (values : List String) :
    List FuzzySetScore :=
  (token_set_pairs values).map (fun combo =>
    let score := tsr combo.1 combo.2
    let tokens_0 := wordCount combo.1
    let tokens_1 := wordCount combo.2
    if tokens_0 > tokens_1 then FuzzySetScore.mk score combo.1 tokens_0
    else if tokens_0 < tokens_1 then FuzzySetScore.mk score combo.2 tokens_1
    else FuzzySetScore.mk score
      (if pyLen combo.1 ≤ pyLen combo.2 then combo.1 else combo.2) tokens_0)

/-- The ranking of `sorted(scores, reverse=True, key=lambda s: (s.score,
s.tokens, 1000000 - len(s.value)))`. -/
def setGT (a b : FuzzySetScore) : Bool :=
  a.score > b.score ||
    (a.score == b.score && (a.tokens > b.tokens ||
      (a.tokens == b.tokens &&
        ((1000000 : Int) - pyLen a.value > (1000000 : Int) - pyLen b.value))))

/-- `top_token_set_ratio(values)` (userWeightedText.py lines 125-149). -/
def top_token_set_ratio (tsr : String → String → Int) (values : List String) :
    Option FuzzySetScore :=
  pickFirstMax setGT (token_set_scores tsr values)

/-- The module's pluralizer `P = inflect.engine().plural` after
`defnoun('The', 'All')`, on the words this module passes it: the word itself
at count 1, otherwise its plural ("The"→"All", "is"→"are", regular "+s" for
"record" and "blank"). -/
def P (word : String) (n : Nat) : String :=
  if n = 1 then word
  else if word = "The" then "All"
  else if word = "is" then "are"
  else word ++ "s"

/-- `'{} {} {} {} blank'.format(P('The', count), count, P('record', count),
P('is', count))` (userWeightedText.py lines 33-34). -/
def blankReason (count : Nat) : String :=
  P "The" count ++ " " ++ toString count ++ " " ++ P "record" count ++ " "
    ++ P "is" count ++ " blank"

/-- `'Normalized unanimous match, {} of {} {}'` (lines 38-39). -/
def unanimousReason (c count : Nat) : String :=
  "Normalized unanimous match, " ++ toString c ++ " of " ++ toString count
    ++ " " ++ P "record" count

/-- `'Normalized majority match, {} of {} {} with {} {}'` (lines 43-45). -/
def majorityReason (c count blanks : Nat) : String :=
  "Normalized majority match, " ++ toString c ++ " of " ++ toString count
    ++ " " ++ P "record" count ++ " with " ++ toString blanks ++ " "
    ++ P "blank" blanks

/-- `'Only 1 transcript in {} {}'` (line 49). -/
def only1Reason (count : Nat) : String :=
  "Only 1 transcript in " ++ toString count ++ " " ++ P "record" count

/-- `'Partial ratio match on {} {} with {} {}, score={}'` (lines 55-56). -/
def partialReason (count blanks : Nat) (score : Int) : String :=
  "Partial ratio match on " ++ toString count ++ " " ++ P "record" count
    ++ " with " ++ toString blanks ++ " " ++ P "blank" blanks
    ++ ", score=" ++ toString score

/-- `'Token set ratio match on {} {} with {} {}, score={}'` (lines 62-63). -/
def tokenReason (count blanks : Nat) (score : Int) : String :=
  "Token set ratio match on " ++ toString count ++ " " ++ P "record" count
    ++ " with " ++ toString blanks ++ " " ++ P "blank" blanks
    ++ ", score=" ++ toString score

/-- `'No text match on {} {} with {} {}'` (lines 66-67). -/
def noMatchReason (count blanks : Nat) : String :=
  "No text match on " ++ toString count ++ " " ++ P "record" count
    ++ " with " ++ toString blanks ++ " " ++ P "blank" blanks

/-- The configuration namespace produced by `parse_command_line`
(reconcile.py lines 140-158): `user_weights` has been replaced by a dict with
lower-cased user ids (lines 142-148), and the two thresholds are integers. -/
structure Args where
  user_weights : List (String × Int)
  fuzzy_ratio_threshold : Int
  fuzzy_set_threshold : Int
deriving Repr, DecidableEq

/-- `sum([f.count for f in filled])`. -/
def sumCounts (l : List ExactScore) : Nat := (l.map ExactScore.count).sum

/-- `reconcile(group, args)` (userWeightedText.py lines 18-68), composed with
the configuration that `parse_command_line` hands to the dispatcher.  A group
entry carries `(user identifier, raw text)`.  Lines 20-23 run
`args.user_weights.split(',')`; after `parse_command_line`,
`args.user_weights` is a dict (reconcile.py lines 142-148), so a non-empty
(truthy) weight map raises `AttributeError` before any group logic runs,
while an empty (falsy) one leaves `trustedUserWeights = {}`.  The two
`scores[0]` selections raise `IndexError` on an empty score list; both
fallible paths are modelled with `Except.error`. -/
def reconcile (pr tsr : String → String → Int)
    (group : List (String × String)) (args : Args) :
    Except String (String × String) :=
  if args.user_weights ≠ [] then
    .error "AttributeError: dict object has no attribute split"
  else
    let trustedUserWeights : List (String × Int) := []
    let values := group.map (fun g => convLine g.2)
    let filled := only_filled_values values
    let count := values.length
    let blanks := count - sumCounts filled
    match filled with
    | [] => .ok (blankReason count, "")
    | f0 :: rest =>
      if f0.count > 1 ∧ f0.count = count then
        .ok (unanimousReason f0.count count, f0.value)
      else if f0.count > 1 then
        .ok (majorityReason f0.count count blanks, f0.value)
      else if rest = [] then
        .ok (only1Reason count, f0.value)
      else
        match top_partial_ratio pr group trustedUserWeights with
        | none => .error "IndexError"
        | some top =>
          if top.score ≥ args.fuzzy_ratio_threshold then
            .ok (partialReason count blanks top.score, top.value)
          else
            match top_token_set_ratio tsr values with
            | none => .error "IndexError"
            | some top2 =>
              if top2.score ≥ args.fuzzy_set_threshold then
                .ok (tokenReason count blanks top2.score, top2.value)
              else
                .ok (noMatchReason count blanks, "")

/-- A constant similarity function, used to instantiate the external
`fuzzywuzzy` scorers on concrete examples. -/
def constRatio (n : Int) : String → String → Int := fun _ _ => n

/-- Python `str.lower()` of a user identifier (ASCII). -/
def lowerStr (s : String) : String := ⟨s.data.map Char.toLower⟩

/-- Following the spec's words for step 7 ("Resolve the candidate's authoring
user (case-insensitive); add the user's weight"): as `partial_scores`, but the
author's identifier is lower-cased before it is looked up in the weight map,
so that a map keyed by lower-cased ids matches the author regardless of case. -/
def partial_scores_caseins (pr : String → String → Int)
    (group : List (String × String)) (trustedUserWeights : List (String × Int)) :
    List FuzzyRatioScore :=
  let values := group.map (fun g => (g.1, convLine g.2))
  let attribution := userAttribution values
  (combos (values.map Prod.snd)).map (fun combo =>
    let score := pr combo.1 combo.2
    let value := if pyLen combo.1 ≥ pyLen combo.2 then combo.1 else combo.2
    let userName := (lookup? attribution value).map lowerStr
    let scoreWeight := getWeight trustedUserWeights userName
    let score := score + scoreWeight
    let score := if score > 100 then (100 : Int) else score
    FuzzyRatioScore.mk score value)

/-- The case-insensitive variant of `top_partial_ratio` that the spec
describes. -/
def top_partial_ratio_caseins (pr : String → String → Int)
    (group : List (String × String)) (trustedUserWeights : List (String × Int)) :
    Option FuzzyRatioScore :=
  pickFirstMax ratioGT (partial_scores_caseins pr group trustedUserWeights)

/-- Following the spec's words for step 7 ("for every unordered pair of raw
filled entries (in original order)"): the unordered pairs of the raw entries
that are filled (non-blank after stripping). -/
def claim_partial_pairs (group : List (String × String)) :
    List (String × String) :=
  combos ((group.map Prod.snd).filter (fun v => pyStrip v != ""))

/-- Following the spec's words for step 8: the candidate of a pair is "the
member with more whitespace-separated tokens; ties broken by shorter
character length, then first-pair-order". -/
def claim_set_candidate (c : String × String) : String :=
  if wordCount c.1 > wordCount c.2 then c.1
  else if wordCount c.1 < wordCount c.2 then c.2
  else if pyLen c.1 ≤ pyLen c.2 then c.1 else c.2

/-- The candidate of a step-7 pair (userWeightedText.py line 111): the longer
member, ties toward the first. -/
def pairCandidate (c : String × String) : String :=
  if pyLen c.1 ≥ pyLen c.2 then c.1 else c.2

/-- The author weight a step-7 pair receives (userWeightedText.py lines
112-113): the weight of the user that the attribution dict maps the
candidate's text to, 0 when there is none. -/
def pairWeight (group : List (String × String)) (w : List (String × Int))
    (c : String × String) : Int :=
  getWeight w
    (lookup? (userAttribution (group.map (fun g => (g.1, convLine g.2))))
      (pairCandidate c))

/-- Erase the decimal digits of a string, leaving the non-numeric template
text of an explanation. -/
def stripDigits (s : String) : String := ⟨s.data.filter (fun c => !c.isDigit)⟩

/-- C1: the claim says the text strategy returns exactly one
(explanation, value) pair and never raises, even with a non-empty
`userWeights` map.  The code violates this: `parse_command_line`
(reconcile.py lines 142-148) turns `args.user_weights` into a dict, and
`reconcile` (userWeightedText.py line 21) then calls `.split(',')` on it, so
any non-empty weight map raises `AttributeError` for every group — here an
all-blank group of two records.  With an empty weight map the all-blank group
does return value `""` with the blank explanation. -/
theorem c1_nonempty_weights_raise :
    (∀ pr tsr : String → String → Int,
      reconcile pr tsr [("u", ""), ("v", "")]
        (Args.mk [("asmith", 10)] 90 50) =
        .error "AttributeError: dict object has no attribute split") ∧
    (∀ pr tsr : String → String → Int,
      reconcile pr tsr [("u", ""), ("v", "")] (Args.mk [] 90 50) =
        .ok ("All 2 records are blank", "")) :=
  ⟨fun _ _ => rfl, fun _ _ => rfl⟩

/-- C2 counterexample: on `["Ohio", "Ohio", "ohio."]` with the default
configuration the code returns value `"ohio."`, not `"Ohio"` as the claim
states — `"ohio."` (5 characters) is the longest literal variant of the
single key-group, so the `sorted(vals, key=len, reverse=True)[0]` selection
picks it over `"Ohio"` (4 characters). -/
theorem c2_ohio_value_counterexample :
    reconcile (constRatio 0) (constRatio 0)
      [("u1", "Ohio"), ("u2", "Ohio"), ("u3", "ohio.")] (Args.mk [] 90 50) =
      .ok ("Normalized unanimous match, 3 of 3 records", "ohio.") ∧
    ("ohio." : String) ≠ "Ohio" :=
  ⟨rfl, by decide⟩

/-- C2 amended: for the group `["Ohio", "Ohio", "ohio."]` under the default
configuration the strategy returns the explanation
"Normalized unanimous match, 3 of 3 records" and the value `"ohio."` — the
longest literal variant of the single key-group (ties broken by first
occurrence), which here is `"ohio."` rather than `"Ohio"`. -/
theorem c2_ohio_group_result :
    ∀ pr tsr : String → String → Int,
      reconcile pr tsr [("u1", "Ohio"), ("u2", "Ohio"), ("u3", "ohio.")]
        (Args.mk [] 90 50) =
        .ok ("Normalized unanimous match, 3 of 3 records", "ohio.") :=
  fun _ _ => rfl

/-- C3: the claim says the step-7 weight lookup is case-insensitive.  The
code violates this: `parse_command_line` lower-cases the keys of the weight
map, but `top_partial_ratio` (userWeightedText.py line 113) looks the
author's identifier up verbatim.  With the map `{"asmith": 70}` (what
`--user-weights "aSmith:70"` parses to) and the candidate authored by
`"aSmith"`, the code adds weight 0 (score stays 50), while the
case-insensitive lookup the spec describes would add 70 (scoring
min(120, 100) = 100). -/
theorem c3_weight_lookup_case_sensitive :
    top_partial_ratio (constRatio 50)
      [("aSmith", "aaaa bbbb"), ("jdoe", "xy")] [("asmith", 70)] =
      some (FuzzyRatioScore.mk 50 "aaaa bbbb") ∧
    top_partial_ratio_caseins (constRatio 50)
      [("aSmith", "aaaa bbbb"), ("jdoe", "xy")] [("asmith", 70)] =
      some (FuzzyRatioScore.mk 100 "aaaa bbbb") ∧
    (50 : Int) ≠ 100 :=
  ⟨rfl, rfl, by decide⟩

/-- C4 counterexample: the claim says the step-7 pairs range over the raw
filled entries only.  On the group `["a  b", "cd", ""]` the code scores three
pairs — over the whitespace-normalized entries (`"a b"`, not the raw
`"a  b"`) and with the blank entry participating — while pairs of raw filled
entries would give exactly one pair `("a  b", "cd")`. -/
theorem c4_pairs_counterexample :
    partial_ratio_pairs [("u", "a  b"), ("v", "cd"), ("w", "")] =
      [("a b", "cd"), ("a b", ""), ("cd", "")] ∧
    claim_partial_pairs [("u", "a  b"), ("v", "cd"), ("w", "")] =
      [("a  b", "cd")] ∧
    partial_ratio_pairs [("u", "a  b"), ("v", "cd"), ("w", "")] ≠
      claim_partial_pairs [("u", "a  b"), ("v", "cd"), ("w", "")] :=
  ⟨rfl, rfl, by decide⟩

/-- Both members of any pair `combinations` enumerates come from the
underlying list. -/
theorem mem_combos {α : Type} {l : List α} {p : α × α} (h : p ∈ combos l) :
    p.1 ∈ l ∧ p.2 ∈ l := by
  induction l with
  | nil => simp [combos] at h
  | cons x xs ih =>
    simp only [combos, List.mem_append, List.mem_map] at h
    rcases h with ⟨y, hy, hp⟩ | h
    · cases hp
      exact ⟨List.mem_cons_self _ _, List.mem_cons_of_mem _ hy⟩
    · obtain ⟨h1, h2⟩ := ih h
      exact ⟨List.mem_cons_of_mem _ h1, List.mem_cons_of_mem _ h2⟩

/-- C4 amended: steps 7 and 8 score exactly the same unordered pairs — those
of the whitespace-normalized entries of the whole group, blanks included —
and every member of every scored pair is a normalized entry of the group. -/
theorem c4_both_steps_same_normalized_pairs :
    ∀ group : List (String × String),
      partial_ratio_pairs group =
        token_set_pairs (group.map (fun g => convLine g.2)) ∧
      ∀ p ∈ partial_ratio_pairs group,
        p.1 ∈ group.map (fun g => convLine g.2) ∧
        p.2 ∈ group.map (fun g => convLine g.2) :=
  fun _ => ⟨rfl, fun _ hp => mem_combos hp⟩

/-- `fillStep` on a non-blank value appends it under its squished key. -/
theorem fillStep_filled (gs : List (String × List String)) (v : String)
    (h : pyStrip v ≠ "") :
    fillStep gs v = dictAppend gs (squish (pyStrip v)) (pyStrip v) := by
  simp [fillStep, h]

/-- Folding `fillStep` over copies of one non-blank value keeps appending its
stripped form to the one key-group. -/
theorem foldl_fillStep_replicate (nv : String) (h : pyStrip nv ≠ "") (n : Nat) :
    ∀ acc : List String,
      (List.replicate n nv).foldl fillStep [(squish (pyStrip nv), acc)] =
        [(squish (pyStrip nv), acc ++ List.replicate n (pyStrip nv))] := by
  induction n with
  | zero => intro acc; simp
  | succ m ih =>
    intro acc
    rw [List.replicate_succ, List.foldl_cons, fillStep_filled _ _ h]
    have hd : dictAppend [(squish (pyStrip nv), acc)] (squish (pyStrip nv))
        (pyStrip nv) = [(squish (pyStrip nv), acc ++ [pyStrip nv])] := by
      simp [dictAppend]
    rw [hd, ih]
    simp [List.replicate_succ, List.append_assoc]

/-- The first-longest selection over copies of one value returns that value. -/
theorem longest_first_replicate (sv : String) (m : Nat) :
    longest_first (sv :: List.replicate m sv) = sv := by
  show (List.replicate m sv).foldl
    (fun best x => if pyLen x > pyLen best then x else best) sv = sv
  induction m with
  | zero => rfl
  | succ k ih =>
    rw [List.replicate_succ, List.foldl_cons]
    simpa using ih

/-- `only_filled_values` on `k ≥ 1` copies of a non-blank value: one
key-group, represented by the stripped value with count `k`. -/
theorem only_filled_values_replicate (nv : String) (h : pyStrip nv ≠ "")
    (k : Nat) (hk : 1 ≤ k) :
    only_filled_values (List.replicate k nv) =
      [ExactScore.mk (pyStrip nv) k] := by
  obtain ⟨m, rfl⟩ : ∃ m, k = m + 1 := ⟨k - 1, by omega⟩
  unfold only_filled_values
  rw [List.replicate_succ, List.foldl_cons, fillStep_filled _ _ h]
  have hd : dictAppend [] (squish (pyStrip nv)) (pyStrip nv) =
      [(squish (pyStrip nv), [pyStrip nv])] := rfl
  rw [hd, foldl_fillStep_replicate nv h m [pyStrip nv]]
  have hrep : ([pyStrip nv] ++ List.replicate m (pyStrip nv)) =
      pyStrip nv :: List.replicate m (pyStrip nv) := rfl
  rw [hrep]
  simp [longest_first_replicate, List.insertionSort, List.orderedInsert]

/-- C9: determinism — the strategy is a pure function of the group, the
configuration and the (deterministic) similarity scorers, so two runs on
identical inputs return identical (explanation, value) pairs.  The embedding
makes this definitional: every construct the Python code uses (dict insertion
order, stable sorting, pair enumeration) is deterministic. -/
theorem c9_deterministic (pr tsr : String → String → Int)
    (g1 g2 : List (String × String)) (a1 a2 : Args)
    (hg : g1 = g2) (ha : a1 = a2) :
    reconcile pr tsr g1 a1 = reconcile pr tsr g2 a2 := by
  rw [hg, ha]

/-- C8 counterexample: the claim says only the displayed counts differ
between the explanations for k copies of a value and for the singleton.  For
`["x", "x"]` versus `["x"]` the reconciled values agree, but the explanations
come from different templates ("Normalized unanimous match, 2 of 2 records"
versus "Only 1 transcript in 1 record"): with the digits erased the two
sentences still differ. -/
theorem c8_explanation_template_counterexample :
    reconcile (constRatio 0) (constRatio 0) [("u", "x"), ("v", "x")]
      (Args.mk [] 90 50) =
      .ok ("Normalized unanimous match, 2 of 2 records", "x") ∧
    reconcile (constRatio 0) (constRatio 0) [("u", "x")] (Args.mk [] 90 50) =
      .ok ("Only 1 transcript in 1 record", "x") ∧
    stripDigits "Normalized unanimous match, 2 of 2 records" ≠
      stripDigits "Only 1 transcript in 1 record" :=
  ⟨rfl, rfl, by decide⟩

/-- C8 amended: for every non-blank value `v` and every `k ≥ 2`, reconciling
`k` copies of `v` yields the same reconciled value as reconciling the
singleton `[v]` — the normalized, stripped form of `v` — but the explanations
use different templates: "Normalized unanimous match, k of k records" for the
copies versus "Only 1 transcript in 1 record" for the singleton (not merely
different counts). -/
theorem c8_value_idempotent_under_duplication
    (pr tsr : String → String → Int) (v : String) (k : Nat)
    (hk : 2 ≤ k) (hv : pyStrip (convLine v) ≠ "") (t1 t2 : Int) :
    reconcile pr tsr (List.replicate k ("u", v)) (Args.mk [] t1 t2) =
      .ok (unanimousReason k k, pyStrip (convLine v)) ∧
    reconcile pr tsr [("u", v)] (Args.mk [] t1 t2) =
      .ok (only1Reason 1, pyStrip (convLine v)) := by
  have hval : (List.replicate k (("u", v) : String × String)).map
      (fun g => convLine g.2) = List.replicate k (convLine v) := by
    simp
  constructor
  · simp only [reconcile]
    rw [hval, only_filled_values_replicate (convLine v) hv k (by omega)]
    simp [hk, Nat.lt_of_lt_of_le Nat.one_lt_two hk]
  · simp only [reconcile]
    have h1 : (([("u", v)] : List (String × String)).map
        (fun g => convLine g.2)) = List.replicate 1 (convLine v) := by simp
    rw [h1, only_filled_values_replicate (convLine v) hv 1 (by omega)]
    simp

/-- Witness for C8 at the concrete input `v = "x"`, `k = 2`. -/
theorem c8_value_idempotent_witness :
    reconcile (constRatio 0) (constRatio 0)
      (List.replicate 2 ("u", "x")) (Args.mk [] 90 50) =
      .ok (unanimousReason 2 2, pyStrip (convLine "x")) ∧
    reconcile (constRatio 0) (constRatio 0) [("u", "x")] (Args.mk [] 90 50) =
      .ok (only1Reason 1, pyStrip (convLine "x")) :=
  c8_value_idempotent_under_duplication (constRatio 0) (constRatio 0) "x" 2
    (by decide) (by decide) 90 50

/-- The ceiling of 100 (userWeightedText.py lines 115-116), written as a
minimum: there is no lower floor. -/
theorem ite_ceiling_eq_min (a : Int) :
    (if a > 100 then (100 : Int) else a) = min a 100 := by
  rcases le_or_lt a 100 with h | h
  · rw [if_neg (not_lt.mpr h), min_eq_left h]
  · rw [if_pos h, min_eq_right h.le]

/-- `partial_scores` in closed form: every step-7 pair is scored
`min(raw similarity + author weight, 100)` with the longer member as
candidate. -/
theorem partial_scores_eq (pr : String → String → Int)
    (group : List (String × String)) (w : List (String × Int)) :
    partial_scores pr group w = (partial_ratio_pairs group).map
      (fun c => FuzzyRatioScore.mk (min (pr c.1 c.2 + pairWeight group w c) 100)
        (pairCandidate c)) := by
  simp only [partial_scores, partial_ratio_pairs, List.map_map]
  have harg : (Prod.snd ∘ fun g : String × String => (g.1, convLine g.2)) =
      fun g : String × String => convLine g.2 := rfl
  rw [harg]
  refine List.map_congr_left (fun c _ => ?_)
  simp only [pairWeight, pairCandidate, ite_ceiling_eq_min]

/-- Pointwise monotone weight maps give pointwise monotone lookups, with the
`None` (unknown) author defaulting to 0 on both sides. -/
theorem getWeight_mono (w w' : List (String × Int))
    (hmono : ∀ u : String, getWeight w (some u) ≤ getWeight w' (some u)) :
    ∀ un : Option String, getWeight w un ≤ getWeight w' un := by
  intro un
  cases un with
  | none => exact le_refl 0
  | some u => exact hmono u

/-- Pointwise relations between maps of the same list lift to `Forall₂`. -/
theorem forall2_map_map {α β : Type} (R : β → β → Prop) (f g : α → β)
    (l : List α) (h : ∀ a ∈ l, R (f a) (g a)) :
    List.Forall₂ R (l.map f) (l.map g) := by
  induction l with
  | nil => exact List.Forall₂.nil
  | cons x xs ih =>
    exact List.Forall₂.cons (h x (List.mem_cons_self _ _))
      (ih fun a ha => h a (List.mem_cons_of_mem _ ha))

/-- C5: for every step-7 pair the effective score is exactly the raw
partial-ratio score plus the candidate author's weight, clamped to a ceiling
of 100 with no lower floor (a `min`, never a `max`); and raising weights
pointwise never lowers any pair's effective score while leaving every
candidate unchanged — in particular increasing one user's weight never
decreases the score of a pair whose candidate that user authored. -/
theorem c5_clamped_sum_and_weight_monotone (pr : String → String → Int)
    (group : List (String × String)) (w w' : List (String × Int))
    (hmono : ∀ u : String, getWeight w (some u) ≤ getWeight w' (some u)) :
    partial_scores pr group w = (partial_ratio_pairs group).map
      (fun c => FuzzyRatioScore.mk (min (pr c.1 c.2 + pairWeight group w c) 100)
        (pairCandidate c)) ∧
    List.Forall₂ (fun s s' => s.value = s'.value ∧ s.score ≤ s'.score)
      (partial_scores pr group w) (partial_scores pr group w') := by
  refine ⟨partial_scores_eq pr group w, ?_⟩
  rw [partial_scores_eq pr group w, partial_scores_eq pr group w']
  refine forall2_map_map _ _ _ _ (fun c _ => ⟨rfl, ?_⟩)
  have hw : pairWeight group w c ≤ pairWeight group w' c :=
    getWeight_mono w w' hmono _
  exact min_le_min (add_le_add_left hw _) le_rfl

/-- Witness for C5 at a concrete input: empty weights versus weight 5 for
user "u". -/
theorem c5_weight_monotone_witness :
    List.Forall₂ (fun s s' => s.value = s'.value ∧ s.score ≤ s'.score)
      (partial_scores (constRatio 50) [("u", "ab"), ("v", "c")] [])
      (partial_scores (constRatio 50) [("u", "ab"), ("v", "c")] [("u", 5)]) :=
  (c5_clamped_sum_and_weight_monotone (constRatio 50) [("u", "ab"), ("v", "c")]
    [] [("u", 5)] (by
      intro u
      show ((lookup? ([] : List (String × Int)) u).getD 0 : Int) ≤
        (lookup? [("u", 5)] u).getD 0
      simp only [lookup?]
      split <;> simp)).2

/-- The element `pickFirstMax` returns comes from the list. -/
theorem foldl_pick_mem {α : Type} (gt : α → α → Bool) :
    ∀ (l : List α) (b : α),
      l.foldl (fun best y => if gt y best then y else best) b ∈ b :: l := by
  intro l
  induction l with
  | nil => intro b; simp
  | cons x xs ih =>
    intro b
    rw [List.foldl_cons]
    rcases List.mem_cons.mp (ih (if gt x b then x else b)) with h | h
    · rw [h]
      split
      · exact List.mem_cons_of_mem _ (List.mem_cons_self _ _)
      · exact List.mem_cons_self _ _
    · exact List.mem_cons_of_mem _ (List.mem_cons_of_mem _ h)

/-- No element of the list strictly beats the one the fold keeps, provided
the strict comparison is irreflexive, transitive and negatively transitive
(a strict weak order, as a lexicographic sort key is). -/
theorem foldl_pick_not_beaten {α : Type} (gt : α → α → Bool)
    (hirr : ∀ a, gt a a = false)
    (htrans : ∀ a b c, gt a b = true → gt b c = true → gt a c = true)
    (hneg : ∀ a b c, gt a b = false → gt b c = false → gt a c = false) :
    ∀ (l : List α) (b : α),
      gt b (l.foldl (fun best y => if gt y best then y else best) b) = false ∧
      ∀ x ∈ l, gt x (l.foldl (fun best y => if gt y best then y else best) b)
        = false := by
  intro l
  induction l with
  | nil => intro b; exact ⟨hirr b, by simp⟩
  | cons x xs ih =>
    intro b
    rw [List.foldl_cons]
    obtain ⟨h1, h2⟩ := ih (if gt x b then x else b)
    by_cases hxb : gt x b = true
    · rw [if_pos hxb] at h1 h2 ⊢
      have hbr : gt b (xs.foldl (fun best y => if gt y best then y else best) x)
          = false := by
        cases hbr : gt b (xs.foldl (fun best y => if gt y best then y else best) x)
        · rfl
        · rw [htrans x b _ hxb hbr] at h1
          exact h1
      refine ⟨hbr, fun y hy => ?_⟩
      rcases List.mem_cons.mp hy with rfl | hy
      · exact h1
      · exact h2 y hy
    · have hxb' : gt x b = false := Bool.eq_false_iff.mpr hxb
      rw [if_neg hxb] at h1 h2 ⊢
      refine ⟨h1, fun y hy => ?_⟩
      rcases List.mem_cons.mp hy with rfl | hy
      · exact hneg y b _ hxb' h1
      · exact h2 y hy

/-- `sorted(..., reverse=True)[0]` returns an element of the list. -/
theorem pickFirstMax_mem {α : Type} (gt : α → α → Bool) (l : List α) (r : α)
    (h : pickFirstMax gt l = some r) : r ∈ l := by
  cases l with
  | nil => cases h
  | cons a as =>
    cases h
    exact foldl_pick_mem gt as a

/-- `sorted(..., reverse=True)[0]` is maximal: no list element ranks
strictly above it. -/
theorem pickFirstMax_not_beaten {α : Type} (gt : α → α → Bool)
    (hirr : ∀ a, gt a a = false)
    (htrans : ∀ a b c, gt a b = true → gt b c = true → gt a c = true)
    (hneg : ∀ a b c, gt a b = false → gt b c = false → gt a c = false)
    (l : List α) (r : α) (h : pickFirstMax gt l = some r) :
    ∀ x ∈ l, gt x r = false := by
  cases l with
  | nil => cases h
  | cons a as =>
    cases h
    obtain ⟨h1, h2⟩ := foldl_pick_not_beaten gt hirr htrans hneg as a
    intro x hx
    rcases List.mem_cons.mp hx with rfl | hx
    · exact h1
    · exact h2 x hx

/-- The step-8 ranking in propositional form. -/
theorem setGT_spec (a b : FuzzySetScore) :
    setGT a b = true ↔
      (b.score < a.score ∨ (a.score = b.score ∧
        (b.tokens < a.tokens ∨ (a.tokens = b.tokens ∧
          (1000000 : Int) - pyLen b.value < (1000000 : Int) - pyLen a.value)))) := by
  simp [setGT]

theorem setGT_irrefl (a : FuzzySetScore) : setGT a a = false := by
  rw [Bool.eq_false_iff, ne_eq, setGT_spec]
  omega

theorem setGT_trans (a b c : FuzzySetScore) (h1 : setGT a b = true)
    (h2 : setGT b c = true) : setGT a c = true := by
  rw [setGT_spec] at h1 h2 ⊢
  omega

theorem setGT_negtrans (a b c : FuzzySetScore) (h1 : setGT a b = false)
    (h2 : setGT b c = false) : setGT a c = false := by
  rw [Bool.eq_false_iff, ne_eq, setGT_spec] at h1 h2 ⊢
  omega

/-- The step-8 scored list in closed form: each pair scores the raw
token-set similarity of its two members, and the candidate is the member
with more whitespace tokens, ties broken toward the shorter string and then
the first member of the pair; the recorded token count is the larger one. -/
theorem token_set_scores_eq (tsr : String → String → Int) (values : List String) :
    token_set_scores tsr values = (token_set_pairs values).map
      (fun c => FuzzySetScore.mk (tsr c.1 c.2) (claim_set_candidate c)
        (max (wordCount c.1) (wordCount c.2))) := by
  unfold token_set_scores
  refine List.map_congr_left (fun c _ => ?_)
  show (if wordCount c.1 > wordCount c.2 then
      FuzzySetScore.mk (tsr c.1 c.2) c.1 (wordCount c.1)
    else if wordCount c.1 < wordCount c.2 then
      FuzzySetScore.mk (tsr c.1 c.2) c.2 (wordCount c.2)
    else FuzzySetScore.mk (tsr c.1 c.2)
      (if pyLen c.1 ≤ pyLen c.2 then c.1 else c.2) (wordCount c.1)) =
    FuzzySetScore.mk (tsr c.1 c.2) (claim_set_candidate c)
      (max (wordCount c.1) (wordCount c.2))
  unfold claim_set_candidate
  split_ifs with h1 h2 h3
  · rw [Nat.max_eq_left (by omega)]
  · rw [Nat.max_eq_right (by omega)]
  · rw [Nat.max_eq_left (by omega)]
  · rw [Nat.max_eq_left (by omega)]

/-- C7: in step 8, every scored pair's candidate is the member with more
whitespace-separated tokens (ties: shorter character length, then the first
member of the pair), and the element `top_token_set_ratio` returns is a
scored pair that no other scored pair ranks strictly above under
(score desc, token count desc, length asc). -/
theorem c7_set_candidate_and_winner (tsr : String → String → Int)
    (values : List String) (s : FuzzySetScore)
    (hs : top_token_set_ratio tsr values = some s) :
    token_set_scores tsr values = (token_set_pairs values).map
      (fun c => FuzzySetScore.mk (tsr c.1 c.2) (claim_set_candidate c)
        (max (wordCount c.1) (wordCount c.2))) ∧
    s ∈ token_set_scores tsr values ∧
    ∀ x ∈ token_set_scores tsr values, setGT x s = false :=
  ⟨token_set_scores_eq tsr values, pickFirstMax_mem _ _ _ hs,
    pickFirstMax_not_beaten _ setGT_irrefl setGT_trans setGT_negtrans _ _ hs⟩

/-- Witness for C7 at the concrete input `["a b c", "c b a"]`. -/
theorem c7_set_candidate_witness :
    FuzzySetScore.mk 100 "a b c" 3 ∈
      token_set_scores (constRatio 100) ["a b c", "c b a"] :=
  (c7_set_candidate_and_winner (constRatio 100) ["a b c", "c b a"]
    (FuzzySetScore.mk 100 "a b c" 3) rfl).2.1

/-- The number of filled entries a grouping dict holds. -/
def sumLens (gs : List (String × List String)) : Nat :=
  (gs.map (fun g => g.2.length)).sum

/-- Appending one value to a grouping dict grows its entry total by one. -/
theorem dictAppend_sumLens (gs : List (String × List String)) (k v : String) :
    sumLens (dictAppend gs k v) = sumLens gs + 1 := by
  induction gs with
  | nil => rfl
  | cons g rest ih =>
    obtain ⟨k0, vs⟩ := g
    simp only [dictAppend]
    split
    · simp [sumLens]
      omega
    · simp only [sumLens, List.map_cons, List.sum_cons] at ih ⊢
      omega

/-- Folding the grouping step adds at most one entry per value. -/
theorem foldl_fillStep_sumLens :
    ∀ (values : List String) (gs : List (String × List String)),
      sumLens (values.foldl fillStep gs) ≤ sumLens gs + values.length := by
  intro values
  induction values with
  | nil => intro gs; simp
  | cons v vs ih =>
    intro gs
    rw [List.foldl_cons]
    refine le_trans (ih (fillStep gs v)) ?_
    have hstep : sumLens (fillStep gs v) ≤ sumLens gs + 1 := by
      by_cases hb : pyStrip v = ""
      · simp [fillStep, hb]
      · rw [fillStep_filled gs v hb, dictAppend_sumLens]
    simp only [List.length_cons]
    omega

/-- `dictAppend` never creates an empty key-group. -/
theorem dictAppend_ne_nil (gs : List (String × List String)) (k v : String)
    (h : ∀ g ∈ gs, g.2 ≠ []) : ∀ g ∈ dictAppend gs k v, g.2 ≠ [] := by
  induction gs with
  | nil =>
    intro g hg
    simp only [dictAppend, List.mem_singleton] at hg
    subst hg
    simp
  | cons g0 rest ih =>
    obtain ⟨k0, vs⟩ := g0
    intro g hg
    simp only [dictAppend] at hg
    split at hg
    · rcases List.mem_cons.mp hg with rfl | hg
      · simp
      · exact h g (List.mem_cons_of_mem _ hg)
    · rcases List.mem_cons.mp hg with rfl | hg
      · exact h _ (List.mem_cons_self _ _)
      · exact ih (fun g' hg' => h g' (List.mem_cons_of_mem _ hg')) g hg

/-- Every key-group the grouping fold builds is non-empty. -/
theorem foldl_fillStep_ne_nil :
    ∀ (values : List String) (gs : List (String × List String)),
      (∀ g ∈ gs, g.2 ≠ []) →
      ∀ g ∈ values.foldl fillStep gs, g.2 ≠ [] := by
  intro values
  induction values with
  | nil => intro gs h; exact h
  | cons v vs ih =>
    intro gs h
    rw [List.foldl_cons]
    refine ih (fillStep gs v) ?_
    by_cases hb : pyStrip v = ""
    · simpa [fillStep, hb] using h
    · rw [fillStep_filled gs v hb]
      exact dictAppend_ne_nil gs _ _ h

/-- Every key-group `only_filled_values` reports holds at least one entry. -/
theorem only_filled_counts_pos (values : List String) :
    ∀ e ∈ only_filled_values values, 1 ≤ e.count := by
  intro e he
  unfold only_filled_values at he
  have he2 := (List.perm_insertionSort countDescR _).subset he
  obtain ⟨g, hg, rfl⟩ := List.mem_map.mp he2
  have hne := foldl_fillStep_ne_nil values [] (by simp) g hg
  have hp := List.length_pos.mpr hne
  show 1 ≤ g.2.length
  omega

/-- The counts `only_filled_values` reports sum to at most the group size:
each filled entry lands in exactly one key-group. -/
theorem sumCounts_only_filled_le (values : List String) :
    sumCounts (only_filled_values values) ≤ values.length := by
  unfold only_filled_values sumCounts
  have hperm := (List.perm_insertionSort countDescR
    ((values.foldl fillStep []).map
      (fun g => ExactScore.mk (longest_first g.2) g.2.length))).map ExactScore.count
  rw [hperm.sum_eq, List.map_map]
  have : ((values.foldl fillStep []).map
      (ExactScore.count ∘ fun g => ExactScore.mk (longest_first g.2) g.2.length))
      = (values.foldl fillStep []).map (fun g => g.2.length) := rfl
  rw [this]
  simpa [sumLens] using foldl_fillStep_sumLens values []

/-- A list in which every count is at least one has a count total at least
its length. -/
theorem length_le_sumCounts (l : List ExactScore)
    (h : ∀ e ∈ l, 1 ≤ e.count) : l.length ≤ sumCounts l := by
  induction l with
  | nil => simp [sumCounts]
  | cons e t ih =>
    have h1 := h e (List.mem_cons_self _ _)
    have h2 := ih (fun x hx => h x (List.mem_cons_of_mem _ hx))
    simp only [sumCounts, List.map_cons, List.sum_cons, List.length_cons] at h2 ⊢
    omega

/-- A list with at least two elements yields at least one unordered pair. -/
theorem combos_ne_nil {α : Type} (l : List α) (h : 2 ≤ l.length) :
    combos l ≠ [] := by
  cases l with
  | nil => simp at h
  | cons a l' =>
    cases l' with
    | nil => simp at h
    | cons b t => simp [combos]

/-- `pickFirstMax` succeeds on every non-empty list. -/
theorem pickFirstMax_isSome {α : Type} (gt : α → α → Bool) (l : List α)
    (h : l ≠ []) : (pickFirstMax gt l).isSome = true := by
  cases l with
  | nil => exact absurd rfl h
  | cons a as => rfl

/-- C10: whenever the decision ladder reaches the fuzzy steps — the filled
key-group list is non-empty and has more than one element, so none of the
terminal branches 2-6 fired — the group holds at least two distinct filled
key-groups, hence at least two entries, the pairwise enumeration of both
fuzzy steps is non-empty, and both top-ranked selections succeed. -/
theorem c10_fuzzy_selection_total (pr tsr : String → String → Int)
    (w : List (String × Int)) (group : List (String × String))
    (f0 : ExactScore) (rest : List ExactScore)
    (hf : only_filled_values (group.map (fun g => convLine g.2)) = f0 :: rest)
    (hrest : rest ≠ []) :
    2 ≤ (only_filled_values (group.map (fun g => convLine g.2))).length ∧
    2 ≤ group.length ∧
    combos (group.map (fun g => convLine g.2)) ≠ [] ∧
    (top_partial_ratio pr group w).isSome = true ∧
    (top_token_set_ratio tsr (group.map (fun g => convLine g.2))).isSome = true := by
  have hlen : 2 ≤ (only_filled_values (group.map (fun g => convLine g.2))).length := by
    rw [hf]
    have := List.length_pos.mpr hrest
    simp only [List.length_cons]
    omega
  have hsum : 2 ≤ sumCounts (only_filled_values (group.map (fun g => convLine g.2))) :=
    le_trans hlen (length_le_sumCounts _ (only_filled_counts_pos _))
  have hvlen : 2 ≤ (group.map (fun g => convLine g.2)).length :=
    le_trans hsum (sumCounts_only_filled_le _)
  have hglen : 2 ≤ group.length := by
    rwa [List.length_map] at hvlen
  have hcne : combos (group.map (fun g => convLine g.2)) ≠ [] :=
    combos_ne_nil _ hvlen
  refine ⟨hlen, hglen, hcne, ?_, ?_⟩
  · refine pickFirstMax_isSome _ _ ?_
    rw [partial_scores_eq]
    simpa [partial_ratio_pairs] using hcne
  · refine pickFirstMax_isSome _ _ ?_
    rw [token_set_scores_eq]
    simpa [token_set_pairs] using hcne

/-- Witness for C10 at the concrete group `["ab", "cd"]`. -/
theorem c10_fuzzy_selection_witness :
    2 ≤ (only_filled_values ([("u", "ab"), ("v", "cd")].map
      (fun g => convLine g.2))).length ∧
    2 ≤ ([("u", "ab"), ("v", "cd")] : List (String × String)).length ∧
    combos ([("u", "ab"), ("v", "cd")].map (fun g => convLine g.2)) ≠ [] ∧
    (top_partial_ratio (constRatio 0) [("u", "ab"), ("v", "cd")] []).isSome = true ∧
    (top_token_set_ratio (constRatio 0) ([("u", "ab"), ("v", "cd")].map
      (fun g => convLine g.2))).isSome = true :=
  c10_fuzzy_selection_total (constRatio 0) (constRatio 0) []
    [("u", "ab"), ("v", "cd")] (ExactScore.mk "ab" 1) [ExactScore.mk "cd" 1]
    (by decide) (by decide)

/-- Once the ladder reaches step 7 (weights empty, filled groups present,
top count not above 1, more than one key-group), `reconcile` is the two
threshold tests applied to the two top-ranked fuzzy results. -/
theorem reconcile_fuzzy_spine (pr tsr : String → String → Int)
    (group : List (String × String)) (args : Args)
    (hw : args.user_weights = [])
    (f0 : ExactScore) (rest : List ExactScore)
    (hf : only_filled_values (group.map (fun g => convLine g.2)) = f0 :: rest)
    (h1 : ¬ f0.count > 1) (hrest : rest ≠ [])
    (s : FuzzyRatioScore)
    (hs : top_partial_ratio pr group [] = some s) :
    reconcile pr tsr group args =
      if s.score ≥ args.fuzzy_ratio_threshold then
        .ok (partialReason group.length
          (group.length - sumCounts (f0 :: rest)) s.score, s.value)
      else
        match top_token_set_ratio tsr (group.map (fun g => convLine g.2)) with
        | none => .error "IndexError"
        | some s2 =>
          if s2.score ≥ args.fuzzy_set_threshold then
            .ok (tokenReason group.length
              (group.length - sumCounts (f0 :: rest)) s2.score, s2.value)
          else
            .ok (noMatchReason group.length
              (group.length - sumCounts (f0 :: rest)), "") := by
  cases args with
  | mk uw t1 t2 =>
    have hw' : uw = [] := hw
    subst hw'
    simp only [reconcile]
    rw [hf, hs]
    simp [h1, hrest, List.length_map]

/-- C6: the threshold comparisons of steps 7-9 are inclusive.  With the
ladder at step 7 and `s`, `s2` the two top-ranked fuzzy results: a winning
step-7 score exactly equal to `fuzzy_ratio_threshold` yields the
"Partial ratio match" result; a winning score one point below the threshold
falls through to the token-set step, whose own comparison is again
inclusive; a winning step-8 score exactly equal to `fuzzy_set_threshold`
yields the "Token set ratio match" result; and when both scores fall below
their thresholds the strategy returns the "No text match" explanation with
value `""`. -/
theorem c6_thresholds_inclusive (pr tsr : String → String → Int)
    (group : List (String × String)) (args : Args)
    (hw : args.user_weights = [])
    (f0 : ExactScore) (rest : List ExactScore)
    (hf : only_filled_values (group.map (fun g => convLine g.2)) = f0 :: rest)
    (h1 : ¬ f0.count > 1) (hrest : rest ≠ [])
    (s : FuzzyRatioScore) (hs : top_partial_ratio pr group [] = some s)
    (s2 : FuzzySetScore)
    (hs2 : top_token_set_ratio tsr (group.map (fun g => convLine g.2))
      = some s2) :
    (s.score = args.fuzzy_ratio_threshold →
      reconcile pr tsr group args =
        .ok (partialReason group.length
          (group.length - sumCounts (f0 :: rest)) s.score, s.value)) ∧
    (s.score + 1 = args.fuzzy_ratio_threshold →
      (args.fuzzy_set_threshold ≤ s2.score →
        reconcile pr tsr group args =
          .ok (tokenReason group.length
            (group.length - sumCounts (f0 :: rest)) s2.score, s2.value)) ∧
      (s2.score < args.fuzzy_set_threshold →
        reconcile pr tsr group args =
          .ok (noMatchReason group.length
            (group.length - sumCounts (f0 :: rest)), ""))) ∧
    (s.score < args.fuzzy_ratio_threshold →
      s2.score = args.fuzzy_set_threshold →
      reconcile pr tsr group args =
        .ok (tokenReason group.length
          (group.length - sumCounts (f0 :: rest)) s2.score, s2.value)) ∧
    (s.score < args.fuzzy_ratio_threshold →
      s2.score < args.fuzzy_set_threshold →
      reconcile pr tsr group args =
        .ok (noMatchReason group.length
          (group.length - sumCounts (f0 :: rest)), "")) := by
  have hsp := reconcile_fuzzy_spine pr tsr group args hw f0 rest hf h1 hrest s hs
  refine ⟨fun ha => ?_, fun ha => ⟨fun hb => ?_, fun hb => ?_⟩,
    fun ha hb => ?_, fun ha hb => ?_⟩
  · rw [hsp, if_pos (by omega)]
  · rw [hsp, if_neg (by omega), hs2]
    simp only [if_pos hb]
  · rw [hsp, if_neg (by omega), hs2]
    simp only [if_neg (by omega : ¬ s2.score ≥ args.fuzzy_set_threshold)]
  · rw [hsp, if_neg (by omega), hs2]
    simp only [if_pos (by omega : s2.score ≥ args.fuzzy_set_threshold)]
  · rw [hsp, if_neg (by omega), hs2]
    simp only [if_neg (by omega : ¬ s2.score ≥ args.fuzzy_set_threshold)]

/-- Witness for C6: a score of exactly 90 meets the default threshold 90. -/
theorem c6_thresholds_witness :
    reconcile (constRatio 90) (constRatio 50) [("u", "ab"), ("v", "cd")]
      (Args.mk [] 90 50) =
      .ok (partialReason 2
        (2 - sumCounts [ExactScore.mk "ab" 1, ExactScore.mk "cd" 1]) 90, "ab") :=
  (c6_thresholds_inclusive (constRatio 90) (constRatio 50)
    [("u", "ab"), ("v", "cd")] (Args.mk [] 90 50) rfl
    (ExactScore.mk "ab" 1) [ExactScore.mk "cd" 1] (by decide) (by decide)
    (by decide) (FuzzyRatioScore.mk 90 "ab") rfl
    (FuzzySetScore.mk 50 "ab" 1) rfl).1 rfl

/-- Witness for C9 at a concrete input. -/
theorem c9_deterministic_witness :
    reconcile (constRatio 0) (constRatio 0) [("u", "x")] (Args.mk [] 90 50) =
      reconcile (constRatio 0) (constRatio 0) [("u", "x")] (Args.mk [] 90 50) :=
  c9_deterministic (constRatio 0) (constRatio 0) _ _ _ _ rfl rfl

end LabelRec
